import Mathlib

/-!
Verification of the apply-and-concatenate engine of vectorbt
(src/vectorbt/base/combine_fns.py).

The embedding models NumPy buffers shape-accurately:

* a 2-D array is kept column-major (a list of columns, each a list of values),
  since every operation in the module stacks or writes along axis 1, together
  with an explicit row count and a dtype tag;
* values are modelled as integers; dtypes are promotion-rank tags (NumPy value
  conversion between dtypes is not modelled, only which dtype a buffer carries);
* apply functions are state transformers, so that side effects (in particular,
  how many times and at which indices the engine invokes them) are observable;
* fallible NumPy operations (concatenating an empty list, slice assignment
  that cannot broadcast, indexing a list out of range) return an Except value.
-/

namespace VbtCombine

/-- A dtype tag.  Tags are promotion ranks: the dtype resulting from combining
two buffers is the higher-ranked of the two. -/
abbrev DType := Nat

/-- A 2-D NumPy buffer, stored column-major: cols is the list of columns
(axis-1 slices), each of length nrows. -/
structure Arr2 where
  dtype : DType
  nrows : Nat
  cols : List (List Int)
deriving DecidableEq

/-- Number of columns of a 2-D buffer (shape along axis 1). -/
def Arr2.ncols (a : Arr2) : Nat := a.cols.length

/-- A NumPy array as produced by an apply function: rank 1 or rank 2. -/
inductive NpArr where
  | a1 (dtype : DType) (data : List Int)
  | a2 (arr : Arr2)
deriving DecidableEq

/-- dtype promotion (np.result_type) on two dtype tags: the higher rank wins. -/
def promote (a b : DType) : DType := max a b

/-- Source to_2d_one_nb: if a.ndim > 1 return a, else np.expand_dims(a, axis=1),
turning a rank-1 buffer of length m into an m-by-1 buffer. -/
def to_2d_one_nb : NpArr → Arr2
  | NpArr.a2 a => a
  | NpArr.a1 d xs => { dtype := d, nrows := xs.length, cols := [xs] }

/-- Modelled from the spec: reshape_fns.to_2d (module vectorbt.base.reshape_fns is
not under src/) — the Buffer Normalizer: rank-1 inputs become single-column 2-D
buffers, rank-2 inputs pass through unchanged. -/
def to_2d : NpArr → Arr2
  | NpArr.a2 a => a
  | NpArr.a1 d xs => { dtype := d, nrows := xs.length, cols := [xs] }

/-- Source to_2d_multiple_nb: expand each array of the tuple along axis 1. -/
def to_2d_multiple_nb (a : List NpArr) : List Arr2 := a.map to_2d_one_nb

/-- np.column_stack on a list of already 2-D buffers: concatenation along
axis 1.  Raises on an empty list and on differing row counts; the result dtype
is the promotion of all input dtypes. -/
def column_stack (xs : List Arr2) : Except String Arr2 :=
  match xs with
  | [] => Except.error "need at least one array to concatenate"
  | x :: rest =>
    if rest.all (fun y => y.nrows == x.nrows) then
      Except.ok { dtype := (rest.map Arr2.dtype).foldl promote x.dtype,
                  nrows := x.nrows,
                  cols := ((x :: rest).map Arr2.cols).flatten }
    else Except.error "all the input array dimensions except for the concatenation axis must match exactly"

/-- np.empty((r, c), dtype=d): an uninitialized r-by-c buffer.  The
uninitialized contents are modelled by an arbitrary fill value u supplied by
the caller, so theorems can show independence from the garbage contents. -/
def npEmpty (d : DType) (r c : Nat) (u : Int) : Arr2 :=
  { dtype := d, nrows := r, cols := List.replicate c (List.replicate r u) }

/-- NumPy basic-slice assignment dst[:, lo:hi] = src.  The slice bounds are
clipped to the number of columns of dst; the assignment succeeds iff src
broadcasts to the target shape (each source dimension equals the target
dimension or is 1); a size-1 source dimension is repeated across the target
dimension.  The destination keeps its own dtype (NumPy setitem casts values
silently; value conversion is modelled as the identity). -/
def setColsSlice (dst : Arr2) (lo hi : Nat) (src : Arr2) : Except String Arr2 :=
  let lo2 := min lo dst.ncols
  let hi2 := min hi dst.ncols
  let wt := hi2 - lo2
  if (src.nrows = dst.nrows ∨ src.nrows = 1) ∧ (src.ncols = wt ∨ src.ncols = 1) then
    let newCols := (List.range wt).map (fun j =>
      let c := src.cols.getD (if src.ncols = wt then j else 0) []
      if src.nrows = dst.nrows then c else List.replicate dst.nrows (c.headD 0))
    Except.ok { dst with cols := dst.cols.take lo2 ++ newCols ++ dst.cols.drop hi2 }
  else Except.error "could not broadcast input array"

/-- Sequential invocation of an effectful apply function at each index of the
given list, threading the state left to right and collecting the results in
order.  This is the call/effect skeleton shared by the sequential loops of the
source (the tqdm progress wrapper iterates the same range transparently). -/
def seqRun {σ R : Type} (f : Nat → σ → σ × R) : List Nat → σ → σ × List R
  | [], s => (s, [])
  | i :: rest, s =>
    let p := f i s
    let q := seqRun f rest p.1
    (q.1, p.2 :: q.2)

/-- Source apply_and_concat_none: for i in range(n) call apply_func(i, ...) and
return nothing.  The returned value is the final state of the threaded effects
(the Python function returns None). -/
def apply_and_concat_none {σ R : Type} (n : Nat) (f : Nat → σ → σ × R) (s0 : σ) : σ :=
  (List.range n).foldl (fun s i => (f i s).1) s0

/-- Source apply_and_concat_none_nb: same loop as apply_and_concat_none. -/
def apply_and_concat_none_nb {σ R : Type} (n : Nat) (f : Nat → σ → σ × R) (s0 : σ) : σ :=
  (List.range n).foldl (fun s i => (f i s).1) s0

/-- Source apply_and_concat_one: collect to_2d(apply_func(i, ...)) for
i in range(n), then np.column_stack the collected outputs. -/
def apply_and_concat_one {σ : Type} (n : Nat) (f : Nat → σ → σ × NpArr) (s0 : σ) :
    σ × Except String Arr2 :=
  let p := seqRun f (List.range n) s0
  (p.1, column_stack (p.2.map to_2d))

/-- The fill loop of apply_and_concat_one_nb: for each index i of the list,
take output_0 at i = 0 (iteration 0 is not recomputed) and
to_2d_one_nb(apply_func_nb(i, ...)) otherwise, and write it into the
pre-allocated buffer at columns i*w .. (i+1)*w where w is the width of this
iteration's output.  A failing slice assignment aborts with the error. -/
def oneNbGo {σ : Type} (f : Nat → σ → σ × NpArr) (output0 : Arr2) :
    List Nat → σ → Arr2 → σ × Except String Arr2
  | [], s, out => (s, Except.ok out)
  | i :: rest, s, out =>
    let p := if i = 0 then (s, output0) else
      (let q := f i s; (q.1, to_2d_one_nb q.2))
    match setColsSlice out (i * p.2.ncols) ((i + 1) * p.2.ncols) p.2 with
    | Except.ok out2 => oneNbGo f output0 rest p.1 out2
    | Except.error e => (p.1, Except.error e)

/-- Source apply_and_concat_one_nb: compute output_0 = to_2d_one_nb(apply(0)),
pre-allocate an np.empty buffer of shape (output_0.rows, n * output_0.cols)
with output_0's dtype, then run the fill loop over range(n). -/
def apply_and_concat_one_nb {σ : Type} (u : Int) (n : Nat) (f : Nat → σ → σ × NpArr)
    (s0 : σ) : σ × Except String Arr2 :=
  let p := f 0 s0
  let output0 := to_2d_one_nb p.2
  oneNbGo f output0 (List.range n) p.1
    (npEmpty output0.dtype output0.nrows (n * output0.ncols) u)

/-- Python zip(*xss): transpose a list of tuples, truncating to the shortest
tuple; position j of the result collects the j-th element of every tuple. -/
def pyZip {α : Type} (xss : List (List α)) : List (List α) :=
  match xss with
  | [] => []
  | first :: rest =>
    (List.range (rest.foldl (fun m l => min m l.length) first.length)).map
      (fun j => (first :: rest).filterMap (fun l => l.get? j))

/-- Source apply_and_concat_multiple: collect tuple(map(to_2d, apply(i))) for
i in range(n), then map np.column_stack over zip(*outputs). -/
def apply_and_concat_multiple {σ : Type} (n : Nat) (f : Nat → σ → σ × List NpArr)
    (s0 : σ) : σ × Except String (List Arr2) :=
  let p := seqRun f (List.range n) s0
  (p.1, (pyZip (p.2.map (fun t => t.map to_2d))).mapM column_stack)

/-- The inner loop of apply_and_concat_multiple_nb at iteration i:
for j in range(len(srcs)): dsts[j][:, i*w_j:(i+1)*w_j] = srcs[j].
The indexed loop is modelled structurally over the two lists; indexing dsts[j]
past the end of dsts raises, and a failing slice assignment aborts. -/
def multNbFill (i : Nat) : List Arr2 → List Arr2 → Except String (List Arr2)
  | dsts, [] => Except.ok dsts
  | [], _ :: _ => Except.error "list index out of range"
  | d :: dsts, s :: srcs =>
    match setColsSlice d (i * s.ncols) ((i + 1) * s.ncols) s with
    | Except.ok d2 =>
      match multNbFill i dsts srcs with
      | Except.ok rest => Except.ok (d2 :: rest)
      | Except.error e => Except.error e
    | Except.error e => Except.error e

/-- The outer fill loop of apply_and_concat_multiple_nb: at i = 0 reuse
outputs_0, otherwise compute to_2d_multiple_nb(apply(i)); write every position
into its pre-allocated buffer via multNbFill. -/
def multNbGo {σ : Type} (f : Nat → σ → σ × List NpArr) (outputs0 : List Arr2) :
    List Nat → σ → List Arr2 → σ × Except String (List Arr2)
  | [], s, outs => (s, Except.ok outs)
  | i :: rest, s, outs =>
    let p := if i = 0 then (s, outputs0) else
      (let q := f i s; (q.1, to_2d_multiple_nb q.2))
    match multNbFill i outs p.2 with
    | Except.ok outs2 => multNbGo f outputs0 rest p.1 outs2
    | Except.error e => (p.1, Except.error e)

/-- Source apply_and_concat_multiple_nb: compute outputs_0, pre-allocate one
np.empty buffer of shape (rows_j, n * cols_j) per position j, then run the
outer fill loop over range(n). -/
def apply_and_concat_multiple_nb {σ : Type} (u : Int) (n : Nat)
    (f : Nat → σ → σ × List NpArr) (s0 : σ) : σ × Except String (List Arr2) :=
  let p := f 0 s0
  let outputs0 := to_2d_multiple_nb p.2
  multNbGo f outputs0 (List.range n) p.1
    (outputs0.map (fun o => npEmpty o.dtype o.nrows (n * o.ncols) u))

/-- Source select_and_combine: combine_func(obj, others[i], ...).  Call sites
always pass i < others.length, so the default never surfaces. -/
def select_and_combine {α β : Type} [Inhabited β] (i : Nat) (obj : α)
    (others : List β) (combine_func : α → β → NpArr) : NpArr :=
  combine_func obj (others.getD i default)

/-- Source combine_and_concat: apply_and_concat_one over len(others) iterations
with select_and_combine as the apply function. -/
def combine_and_concat {α β : Type} [Inhabited β] (obj : α) (others : List β)
    (combine_func : α → β → NpArr) : Except String Arr2 :=
  (apply_and_concat_one others.length
    (fun i s => (s, select_and_combine i obj others combine_func)) ()).2

/-- The loop of combine_multiple: result = f(result, objs[i]) for each
remaining element in order. -/
def combineGo {α : Type} (f : α → α → α) : α → List α → α
  | result, [] => result
  | result, y :: ys => combineGo f (f result y) ys

/-- Source combine_multiple: result = objs[0], then fold f over objs[1:].
Indexing objs[0] of an empty sequence raises, hence the Option. -/
def combine_multiple {α : Type} (objs : List α) (f : α → α → α) : Option α :=
  match objs with
  | [] => none
  | x :: rest => some (combineGo f x rest)

/-- Modelled from the spec: run_ntimes_using_ray (module vectorbt.utils.parallel
is not under src/).  The remote task runtime executes the n submitted tasks in
an arbitrary completion order (the order argument); per the spec the results
are gathered and returned in ascending index order, the ordering being the
engine's responsibility to enforce.  An index the runtime never completes
yields a junk placeholder (the spec guarantees this cannot happen when order
covers 0..n-1). -/
def run_ntimes_using_ray (n : Nat) (f : Nat → NpArr) (order : List Nat) : List NpArr :=
  let completed := order.map (fun i => (i, f i))
  (List.range n).map (fun i => (completed.lookup i).getD (NpArr.a1 0 []))

/-- Source apply_and_concat_one_ray: np.column_stack over the to_2d-normalized
results of the distributed run. -/
def apply_and_concat_one_ray (n : Nat) (f : Nat → NpArr) (order : List Nat) :
    Except String Arr2 :=
  column_stack ((run_ntimes_using_ray n f order).map to_2d)

/-! ## Helper lemmas -/

theorem combineGo_eq_foldl {α : Type} (f : α → α → α) (l : List α) (x : α) :
    combineGo f x l = l.foldl f x := by
  induction l generalizing x with
  | nil => rfl
  | cons y ys ih => simp [combineGo, ih]

theorem foldl_fst_eq_seqRun_fst {σ R : Type} (f : Nat → σ → σ × R) (l : List Nat) (s : σ) :
    l.foldl (fun s i => (f i s).1) s = (seqRun f l s).1 := by
  induction l generalizing s with
  | nil => rfl
  | cons i rest ih => simp [seqRun, ih]

theorem seqRun_trace {R : Type} (g : Nat → R) (l : List Nat) (s : List Nat) :
    seqRun (fun i tr => (tr ++ [i], g i)) l s = (s ++ l, l.map g) := by
  induction l generalizing s with
  | nil => simp [seqRun]
  | cons i rest ih => simp [seqRun, ih]

theorem to_2d_eq_to_2d_one_nb (x : NpArr) : to_2d x = to_2d_one_nb x := by
  cases x <;> rfl

theorem promote_foldl_const (l : List DType) (d : DType) (h : ∀ x ∈ l, x = d) :
    l.foldl promote d = d := by
  induction l with
  | nil => rfl
  | cons x xs ih =>
    have hx : x = d := h x (by simp)
    have : promote d x = d := by simp [promote, hx]
    simpa [this] using ih (fun y hy => h y (by simp [hy]))

theorem column_stack_ok (x : Arr2) (rest : List Arr2)
    (h : ∀ y ∈ rest, y.nrows = x.nrows) :
    column_stack (x :: rest) =
      Except.ok { dtype := (rest.map Arr2.dtype).foldl promote x.dtype,
                  nrows := x.nrows,
                  cols := ((x :: rest).map Arr2.cols).flatten } := by
  simp only [column_stack]
  rw [if_pos]
  rw [List.all_eq_true]
  intro y hy
  exact beq_iff_eq.mpr (h y hy)

theorem seqRun_pure {σ R : Type} (g : Nat → R) (l : List Nat) (s : σ) :
    seqRun (fun i s => (s, g i)) l s = (s, l.map g) := by
  induction l generalizing s with
  | nil => rfl
  | cons i rest ih => simp [seqRun, ih]

theorem map_range_getD {α : Type} (l : List α) (d : α) :
    (List.range l.length).map (fun j => l.getD j d) = l := by
  induction l with
  | nil => rfl
  | cons x xs ih =>
    have h2 : (fun j => (x :: xs).getD j d) ∘ Nat.succ = fun j => xs.getD j d := by
      funext j
      simp [List.getD_cons_succ]
    rw [List.length_cons, List.range_succ_eq_map, List.map_cons, List.map_map, h2, ih]
    simp [List.getD_cons_zero]

theorem range_head_decomp (m : Nat) : List.range (1 + m) = 0 :: List.range' 1 m := by
  rw [Nat.add_comm, List.range_eq_range', List.range'_succ]

/-- The sequential single-stack executor with a state-independent apply
function: explicit successful result under row homogeneity. -/
theorem one_pure_spec {σ : Type} (n : Nat) (hn : 1 ≤ n) (g : Nat → NpArr) (s0 : σ)
    (hrows : ∀ i, i < n → (to_2d (g i)).nrows = (to_2d (g 0)).nrows) :
    ∃ dt, apply_and_concat_one n (fun i s => (s, g i)) s0 =
      (s0, Except.ok
        { dtype := dt, nrows := (to_2d (g 0)).nrows,
          cols := ((List.range n).map (fun i => (to_2d (g i)).cols)).flatten }) := by
  obtain ⟨m, rfl⟩ := Nat.exists_eq_add_of_le hn
  have hmem : ∀ y ∈ (List.range' 1 m).map (fun i => to_2d (g i)),
      y.nrows = (to_2d (g 0)).nrows := by
    intro y hy
    obtain ⟨i, hi, rfl⟩ := List.mem_map.mp hy
    obtain ⟨h1, h2⟩ := List.mem_range'_1.mp hi
    exact hrows i (by omega)
  have hcs := column_stack_ok (to_2d (g 0)) ((List.range' 1 m).map (fun i => to_2d (g i))) hmem
  simp only [List.map_cons, List.map_map, Function.comp_def] at hcs
  refine ⟨List.foldl promote (to_2d (g 0)).dtype
    ((List.range' 1 m).map (fun x => (to_2d (g x)).dtype)), ?_⟩
  rw [apply_and_concat_one, seqRun_pure]
  simp only [range_head_decomp, List.map_cons, List.map_map, Function.comp_def]
  rw [hcs]

/-! ## Claims -/

/-- C9: for every n, the discard-arity operation (apply_and_concat_none and its
compiled variant) is exactly the sequential invocation of the apply function at
the indices 0..n-1 in ascending order, returning nothing but the accumulated
side effects; with a call-recording apply function the recorded trace is
precisely the ascending list of indices 0..n-1. -/
theorem C9_discard_calls : ∀ (n : Nat) (σ R : Type) (f : Nat → σ → σ × R) (s0 : σ),
    apply_and_concat_none n f s0 = (seqRun f (List.range n) s0).1 ∧
    apply_and_concat_none_nb n f s0 = (seqRun f (List.range n) s0).1 ∧
    apply_and_concat_none n (fun i (tr : List Nat) => (tr ++ [i], ())) [] = List.range n ∧
    apply_and_concat_none_nb n (fun i (tr : List Nat) => (tr ++ [i], ())) [] = List.range n := by
  intro n σ R f s0
  refine ⟨foldl_fst_eq_seqRun_fst f _ s0, foldl_fst_eq_seqRun_fst f _ s0, ?_, ?_⟩ <;>
    simp [apply_and_concat_none, apply_and_concat_none_nb,
      foldl_fst_eq_seqRun_fst (fun i (tr : List Nat) => (tr ++ [i], ())), seqRun_trace]

/-- C6: combine_multiple is the strict left fold of the combine function over
the sequence: a singleton is returned unchanged for every combine function,
[a, b, c] folds to f (f a b) c, a nonempty sequence folds from the left, and
the empty sequence has no result (objs[0] raises). -/
theorem C6_left_fold : ∀ (α : Type) (f : α → α → α) (a b c : α),
    combine_multiple [a] f = some a ∧
    combine_multiple [a, b, c] f = some (f (f a b) c) ∧
    (∀ (x : α) (l : List α), combine_multiple (x :: l) f = some (l.foldl f x)) ∧
    combine_multiple ([] : List α) f = none := by
  intro α f a b c
  refine ⟨rfl, rfl, ?_, rfl⟩
  intro x l
  simp [combine_multiple, combineGo_eq_foldl]

/-- C2 counterexample: the claim states every single-stack and multi-stack
operation fails at n = 0, but at n = 0 the sequential multi-stack executor
returns an empty list and the compiled single-stack executor calls the apply
function at index 0 and returns a zero-column buffer; neither fails. -/
theorem C2_counterexample :
    (apply_and_concat_multiple 0 (fun _ (s : Unit) => (s, [NpArr.a1 0 [1]])) ()).2
      = Except.ok [] ∧
    (apply_and_concat_one_nb 7 0 (fun _ (s : Unit) => (s, NpArr.a1 0 [1, 2])) ()).2
      = Except.ok { dtype := 0, nrows := 2, cols := [] } := by
  exact ⟨rfl, rfl⟩

/-- C2 (amended): when n = 0, the discard-arity operation is a no-op (returns
the state unchanged, zero invocations); the sequential single-stack executor
fails with an error; the sequential multi-stack executor returns an empty list
without invoking the apply function; and each compiled executor invokes the
apply function once at index 0 and returns a zero-column buffer (resp. the
list of per-position zero-column buffers) instead of failing. -/
theorem C2_empty_input : ∀ (σ R : Type) (f : Nat → σ → σ × R)
    (g : Nat → σ → σ × NpArr) (h : Nat → σ → σ × List NpArr) (s0 : σ) (u : Int),
    apply_and_concat_none 0 f s0 = s0 ∧
    apply_and_concat_none_nb 0 f s0 = s0 ∧
    apply_and_concat_one 0 g s0 = (s0, Except.error "need at least one array to concatenate") ∧
    apply_and_concat_multiple 0 h s0 = (s0, Except.ok []) ∧
    apply_and_concat_one_nb u 0 g s0 =
      ((g 0 s0).1, Except.ok { dtype := (to_2d_one_nb (g 0 s0).2).dtype,
                               nrows := (to_2d_one_nb (g 0 s0).2).nrows, cols := [] }) ∧
    apply_and_concat_multiple_nb u 0 h s0 =
      ((h 0 s0).1, Except.ok ((to_2d_multiple_nb (h 0 s0).2).map
        (fun o => { dtype := o.dtype, nrows := o.nrows, cols := [] }))) := by
  intro σ R f g h s0 u
  refine ⟨rfl, rfl, rfl, rfl, ?_, ?_⟩
  · simp [apply_and_concat_one_nb, npEmpty, oneNbGo, Nat.zero_mul]
  · simp [apply_and_concat_multiple_nb, npEmpty, multNbGo, Nat.zero_mul]

/-- C5: for every n >= 1, the sequential single-stack executor normalizes each
per-iteration output to 2-D (a 1-D result of length m becomes an m-by-1
buffer) and returns the column-wise concatenation in which iteration i's
columns appear as the i-th block, in ascending iteration-index order. -/
theorem C5_sequential_single_stack {σ : Type} (n : Nat) (hn : 1 ≤ n)
    (g : Nat → NpArr) (s0 : σ)
    (hrows : ∀ i, i < n → (to_2d (g i)).nrows = (to_2d (g 0)).nrows) :
    (∀ (dt : DType) (xs : List Int),
      to_2d (NpArr.a1 dt xs) = { dtype := dt, nrows := xs.length, cols := [xs] }) ∧
    ∃ out, apply_and_concat_one n (fun i s => (s, g i)) s0 = (s0, Except.ok out) ∧
      out.nrows = (to_2d (g 0)).nrows ∧
      out.cols = ((List.range n).map (fun i => (to_2d (g i)).cols)).flatten := by
  refine ⟨fun dt xs => rfl, ?_⟩
  obtain ⟨dt, h⟩ := one_pure_spec n hn g s0 hrows
  exact ⟨_, h, rfl, rfl⟩

/-- C5 witness: n = 2, iteration i returns the 1-D buffer [i, 10] of length 2,
so the stacked output is a 2-by-2 buffer with iteration order preserved. -/
theorem C5_witness :
    (∀ (dt : DType) (xs : List Int),
      to_2d (NpArr.a1 dt xs) = { dtype := dt, nrows := xs.length, cols := [xs] }) ∧
    ∃ out, apply_and_concat_one 2
        (fun i (s : Unit) => (s, NpArr.a1 0 [Int.ofNat i, 10])) () = ((), Except.ok out) ∧
      out.nrows = (to_2d (NpArr.a1 0 [Int.ofNat 0, 10])).nrows ∧
      out.cols = ((List.range 2).map
        (fun i => (to_2d (NpArr.a1 0 [Int.ofNat i, 10])).cols)).flatten :=
  C5_sequential_single_stack 2 (by decide) (fun i => NpArr.a1 0 [Int.ofNat i, 10]) ()
    (by decide)

/-- C7: for every non-empty candidate sequence, combine_and_concat performs a
single-stack apply-and-concat with n = len(others) whose output column block i
is the normalized combine_func(obj, others[i]), blocks ordered as others. -/
theorem C7_combine_and_concat {α β : Type} [Inhabited β] (obj : α) (others : List β)
    (cf : α → β → NpArr) (hne : others ≠ [])
    (hrows : ∀ i, i < others.length →
      (to_2d (cf obj (others.getD i default))).nrows
        = (to_2d (cf obj (others.getD 0 default))).nrows) :
    ∃ out, combine_and_concat obj others cf = Except.ok out ∧
      out.nrows = (to_2d (cf obj (others.getD 0 default))).nrows ∧
      out.cols = ((List.range others.length).map
        (fun i => (to_2d (cf obj (others.getD i default))).cols)).flatten := by
  have hn : 1 ≤ others.length := by
    cases others with
    | nil => exact absurd rfl hne
    | cons y ys => simp
  obtain ⟨dt, h⟩ := one_pure_spec others.length hn
    (fun i => select_and_combine i obj others cf) () hrows
  simp only [select_and_combine] at h
  refine ⟨{ dtype := dt,
            nrows := (to_2d (cf obj (others.getD 0 default))).nrows,
            cols := ((List.range others.length).map
              (fun i => (to_2d (cf obj (others.getD i default))).cols)).flatten },
          ?_, rfl, rfl⟩
  rw [combine_and_concat]
  simp only [select_and_combine]
  rw [h]

/-- C7 witness: obj = 5 combined with others = [1, 2] by addition yields one
stacked buffer whose two column blocks are the combinations in order. -/
theorem C7_witness :
    ∃ out, combine_and_concat (5 : Int) [(1 : Int), 2]
        (fun a b => NpArr.a1 0 [a + b]) = Except.ok out ∧
      out.nrows = (to_2d (NpArr.a1 0 [(5 : Int) + 1])).nrows ∧
      out.cols = ((List.range ([(1 : Int), 2].length)).map
        (fun i => (to_2d (NpArr.a1 0 [(5 : Int) + [(1 : Int), 2].getD i default])).cols)).flatten :=
  C7_combine_and_concat (5 : Int) [(1 : Int), 2] (fun a b => NpArr.a1 0 [a + b])
    (by decide) (by decide)

theorem lookup_map_pair {R : Type} (f : Nat → R) (order : List Nat) (i : Nat)
    (h : i ∈ order) : (order.map (fun j => (j, f j))).lookup i = some (f i) := by
  induction order with
  | nil => cases h
  | cons j rest ih =>
    by_cases hij : i = j
    · subst hij
      simp [List.lookup]
    · have hb : (i == j) = false := beq_eq_false_iff_ne.mpr hij
      have hmem : i ∈ rest := by
        rcases List.mem_cons.mp h with h1 | h1
        · exact absurd h1 hij
        · exact h1
      simp [List.lookup, hb, ih hmem]

theorem run_ray_perm (n : Nat) (f : Nat → NpArr) (order : List Nat)
    (h : order.Perm (List.range n)) :
    run_ntimes_using_ray n f order = (List.range n).map f := by
  unfold run_ntimes_using_ray
  apply List.map_congr_left
  intro i hi
  have hmem : i ∈ order := h.mem_iff.mpr hi
  rw [lookup_map_pair f order i hmem]
  rfl

/-- C4: for every n >= 1, the distributed single-stack executor gathers the
per-iteration results in ascending index order, so for any completion order
that is a permutation of 0..n-1 it returns exactly the stacked buffer of the
sequential single-stack executor on the same inputs. -/
theorem C4_ray_matches_sequential (n : Nat) (hn : 1 ≤ n) (f : Nat → NpArr)
    (order : List Nat) (hperm : order.Perm (List.range n)) :
    apply_and_concat_one_ray n f order
      = (apply_and_concat_one n (fun i s => (s, f i)) ()).2 := by
  rw [apply_and_concat_one_ray, run_ray_perm n f order hperm,
    apply_and_concat_one, seqRun_pure]

/-- C4 witness: n = 3 with the runtime completing iterations in order
[2, 0, 1] still yields the sequential executor's stacked output. -/
theorem C4_witness :
    apply_and_concat_one_ray 3 (fun i => NpArr.a1 0 [Int.ofNat i]) [2, 0, 1]
      = (apply_and_concat_one 3
          (fun i s => (s, NpArr.a1 0 [Int.ofNat i])) ()).2 :=
  C4_ray_matches_sequential 3 (by decide) (fun i => NpArr.a1 0 [Int.ofNat i])
    [2, 0, 1] (by decide)

/-- Writing a width-w homogeneous block at column offset a*w into a buffer
whose first a*w columns are already filled: the slice assignment succeeds and
replaces exactly the next w junk columns. -/
theorem setColsSlice_exact (d : DType) (r w a m : Nat) (pre junkTail : List (List Int))
    (src : Arr2) (hpre : pre.length = a * w) (hjunk : junkTail.length = (m + 1) * w)
    (hr : src.nrows = r) (hw : src.ncols = w) :
    setColsSlice { dtype := d, nrows := r, cols := pre ++ junkTail } (a * w) ((a + 1) * w) src
      = Except.ok { dtype := d, nrows := r, cols := (pre ++ src.cols) ++ junkTail.drop w } := by
  have hcl : src.cols.length = w := hw
  have hnc : ({ dtype := d, nrows := r, cols := pre ++ junkTail } : Arr2).ncols
      = a * w + (m + 1) * w := by
    simp [Arr2.ncols, hpre, hjunk]
  have hlo : min (a * w) (a * w + (m + 1) * w) = a * w :=
    Nat.min_eq_left (Nat.le_add_right _ _)
  have hhi : min ((a + 1) * w) (a * w + (m + 1) * w) = (a + 1) * w := by
    apply Nat.min_eq_left
    rw [Nat.succ_mul]
    exact Nat.add_le_add_left (Nat.le_mul_of_pos_left w (Nat.succ_pos m)) _
  have hwt : (a + 1) * w - a * w = w := by
    rw [Nat.succ_mul]
    omega
  simp only [setColsSlice, hnc, hlo, hhi, hr, hw]
  rw [if_pos (by simp [hwt])]
  simp only [hwt, eq_self_iff_true, ite_true]
  have hmap : (List.range w).map (fun j => src.cols.getD j []) = src.cols := by
    rw [← hcl]
    exact map_range_getD src.cols []
  rw [hmap, List.take_left' hpre, Nat.succ_mul, ← hpre, List.drop_append]

/-- Every collected output of a sequential run is a value of the apply
function at some index of the visited list. -/
theorem seqRun_mem {σ R : Type} (f : Nat → σ → σ × R) (l : List Nat) (s : σ) :
    ∀ x ∈ (seqRun f l s).2, ∃ i s2, i ∈ l ∧ x = (f i s2).2 := by
  induction l generalizing s with
  | nil => simp [seqRun]
  | cons i rest ih =>
    intro x hx
    simp only [seqRun] at hx
    rcases List.mem_cons.mp hx with h1 | h1
    · exact ⟨i, s, by simp, h1⟩
    · obtain ⟨j, s2, hj, hx2⟩ := ih (f i s).1 x h1
      exact ⟨j, s2, by simp [hj], hx2⟩

/-- The fill loop of the compiled single-stack executor over indices a..a+m-1
(all nonzero), on a buffer whose first a*w columns are the already-written
prefix: it calls the apply function once per index in ascending order,
threading its effects exactly like a sequential run, and writes each
normalized output as the next block of w columns, for any junk contents. -/
theorem oneNbGo_fill {σ : Type} (f : Nat → σ → σ × NpArr) (output0 : Arr2)
    (r w : Nat) (d : DType) :
    ∀ (m a : Nat) (s : σ) (pre junkTail : List (List Int)),
    1 ≤ a →
    (∀ i s2, i ∈ List.range' a m →
      (to_2d_one_nb (f i s2).2).nrows = r ∧ (to_2d_one_nb (f i s2).2).ncols = w) →
    pre.length = a * w →
    junkTail.length = m * w →
    oneNbGo f output0 (List.range' a m) s { dtype := d, nrows := r, cols := pre ++ junkTail }
      = ((seqRun f (List.range' a m) s).1,
         Except.ok
           { dtype := d, nrows := r,
             cols := pre ++ ((seqRun f (List.range' a m) s).2.map
               (fun x => (to_2d_one_nb x).cols)).flatten }) := by
  intro m
  induction m with
  | zero =>
    intro a s pre junkTail ha hshape hpre hjunk
    have : junkTail = [] := List.eq_nil_of_length_eq_zero (by simpa using hjunk)
    subst this
    simp [oneNbGo, seqRun]
  | succ m ih =>
    intro a s pre junkTail ha hshape hpre hjunk
    rw [List.range'_succ a m 1]
    have ha0 : ¬(a = 0) := by omega
    have hmem : a ∈ List.range' a (m + 1) := List.mem_range'_1.mpr ⟨le_refl a, by omega⟩
    obtain ⟨hr, hw⟩ := hshape a s hmem
    have hset := setColsSlice_exact d r w a m pre junkTail (to_2d_one_nb (f a s).2)
      hpre (by simpa using hjunk) hr hw
    simp only [oneNbGo, if_neg ha0]
    rw [hw]
    simp only [hset]
    have hpre2 : (pre ++ (to_2d_one_nb (f a s).2).cols).length = (a + 1) * w := by
      have hcl : (to_2d_one_nb (f a s).2).cols.length = w := hw
      simp [hpre, hcl, Nat.succ_mul]
    have hjunk2 : (junkTail.drop w).length = m * w := by
      simp only [List.length_drop, hjunk]
      rw [Nat.succ_mul]
      omega
    have hshape2 : ∀ i s2, i ∈ List.range' (a + 1) m →
        (to_2d_one_nb (f i s2).2).nrows = r ∧ (to_2d_one_nb (f i s2).2).ncols = w := by
      intro i s2 hi
      obtain ⟨h1, h2⟩ := List.mem_range'_1.mp hi
      exact hshape i s2 (List.mem_range'_1.mpr ⟨by omega, by omega⟩)
    rw [ih (a + 1) (f a s).1 (pre ++ (to_2d_one_nb (f a s).2).cols) (junkTail.drop w)
      (by omega) hshape2 hpre2 hjunk2]
    simp [seqRun, List.append_assoc]

theorem oneNbGo_cons_zero {σ : Type} (f : Nat → σ → σ × NpArr) (output0 : Arr2)
    (rest : List Nat) (s : σ) (out : Arr2) :
    oneNbGo f output0 (0 :: rest) s out =
      match setColsSlice out (0 * output0.ncols) ((0 + 1) * output0.ncols) output0 with
      | Except.ok out2 => oneNbGo f output0 rest s out2
      | Except.error e => (s, Except.error e) := by
  simp [oneNbGo]

/-- C1: for every n >= 1 and every apply function all of whose per-iteration
normalized outputs share iteration 0's row count, column count and dtype, the
compiled single-stack executor returns exactly the sequential single-stack
executor's result (same final effect state, same stacked buffer), for any
uninitialized contents u of the pre-allocated buffer. -/
theorem C1_compiled_matches_sequential {σ : Type} (u : Int) (n : Nat) (hn : 1 ≤ n)
    (f : Nat → σ → σ × NpArr) (s0 : σ)
    (hhom : ∀ i s, i < n →
      (to_2d_one_nb (f i s).2).nrows = (to_2d_one_nb (f 0 s0).2).nrows ∧
      (to_2d_one_nb (f i s).2).ncols = (to_2d_one_nb (f 0 s0).2).ncols ∧
      (to_2d_one_nb (f i s).2).dtype = (to_2d_one_nb (f 0 s0).2).dtype) :
    apply_and_concat_one_nb u n f s0 = apply_and_concat_one n f s0 := by
  obtain ⟨m, rfl⟩ := Nat.exists_eq_add_of_le hn
  set O := to_2d_one_nb (f 0 s0).2 with hO
  have harith : (1 + m) * O.ncols - O.ncols = m * O.ncols := by
    rw [Nat.add_mul, Nat.one_mul]
    omega
  have hset0 : setColsSlice (npEmpty O.dtype O.nrows ((1 + m) * O.ncols) u)
      (0 * O.ncols) ((0 + 1) * O.ncols) O
      = Except.ok
          { dtype := O.dtype, nrows := O.nrows,
            cols := O.cols ++ List.replicate (m * O.ncols) (List.replicate O.nrows u) } := by
    have h0 := setColsSlice_exact O.dtype O.nrows O.ncols 0 m
      [] (List.replicate ((1 + m) * O.ncols) (List.replicate O.nrows u)) O
      (by simp) (by simp [Nat.add_comm]) rfl rfl
    simpa [npEmpty, List.drop_replicate, harith] using h0
  have hshape1 : ∀ i s2, i ∈ List.range' 1 m →
      (to_2d_one_nb (f i s2).2).nrows = O.nrows ∧
      (to_2d_one_nb (f i s2).2).ncols = O.ncols := by
    intro i s2 hi
    obtain ⟨h1, h2⟩ := List.mem_range'_1.mp hi
    obtain ⟨ha, hb, hc⟩ := hhom i s2 (by omega)
    exact ⟨ha, hb⟩
  have hfill := oneNbGo_fill f O O.nrows O.ncols O.dtype m 1 (f 0 s0).1
    O.cols (List.replicate (m * O.ncols) (List.replicate O.nrows u))
    (le_refl 1) hshape1 (by simp [Arr2.ncols]) (by simp)
  have hrows2 : ∀ y ∈ (seqRun f (List.range' 1 m) (f 0 s0).1).2.map to_2d_one_nb,
      y.nrows = O.nrows := by
    intro y hy
    obtain ⟨x, hx, rfl⟩ := List.mem_map.mp hy
    obtain ⟨i, s2, hi, rfl⟩ := seqRun_mem f (List.range' 1 m) (f 0 s0).1 x hx
    obtain ⟨h1, h2⟩ := List.mem_range'_1.mp hi
    exact (hhom i s2 (by omega)).1
  have hdts : ∀ dtv ∈ ((seqRun f (List.range' 1 m) (f 0 s0).1).2.map to_2d_one_nb).map
      Arr2.dtype, dtv = O.dtype := by
    intro dtv hdtv
    obtain ⟨y, hy, rfl⟩ := List.mem_map.mp hdtv
    obtain ⟨x, hx, rfl⟩ := List.mem_map.mp hy
    obtain ⟨i, s2, hi, rfl⟩ := seqRun_mem f (List.range' 1 m) (f 0 s0).1 x hx
    obtain ⟨h1, h2⟩ := List.mem_range'_1.mp hi
    exact (hhom i s2 (by omega)).2.2
  have hstack := column_stack_ok O
    ((seqRun f (List.range' 1 m) (f 0 s0).1).2.map to_2d_one_nb) hrows2
  have ht2 : to_2d = to_2d_one_nb := funext to_2d_eq_to_2d_one_nb
  show oneNbGo f O (List.range (1 + m)) (f 0 s0).1
      (npEmpty O.dtype O.nrows ((1 + m) * O.ncols) u)
    = ((seqRun f (List.range (1 + m)) s0).1,
       column_stack ((seqRun f (List.range (1 + m)) s0).2.map to_2d))
  rw [range_head_decomp, oneNbGo_cons_zero]
  simp only [hset0, hfill]
  simp only [seqRun, ht2, List.map_cons, hstack,
    promote_foldl_const _ O.dtype hdts]
  simp [List.map_map, Function.comp_def]

/-- C1 witness: n = 2 with homogeneous 2-row, 1-column outputs; the compiled
executor's buffer (pre-filled with junk 7) equals the sequential result. -/
theorem C1_witness :
    apply_and_concat_one_nb 7 2 (fun i (s : Unit) => (s, NpArr.a1 3 [Int.ofNat i, 5])) ()
      = apply_and_concat_one 2 (fun i (s : Unit) => (s, NpArr.a1 3 [Int.ofNat i, 5])) () :=
  C1_compiled_matches_sequential 7 2 (by decide)
    (fun i (s : Unit) => (s, NpArr.a1 3 [Int.ofNat i, 5])) ()
    (by
      intro i s hi
      cases s
      interval_cases i <;> decide)

/-- C3 counterexample: with n = 2 and iteration 1 returning a buffer with the
same row count but a different dtype (first conjunct), or a 1-row buffer
against a 2-row iteration 0 (second conjunct), the compiled single-stack
executor succeeds — the dtype drift is silently absorbed by iteration 0's
buffer and the 1-row buffer is silently broadcast — instead of failing. -/
theorem C3_counterexample :
    (apply_and_concat_one_nb 0 2
      (fun i (s : Unit) => (s, NpArr.a2 { dtype := i, nrows := 1, cols := [[5]] })) ()).2
      = Except.ok { dtype := 0, nrows := 1, cols := [[5], [5]] } ∧
    (apply_and_concat_one_nb 0 2
      (fun i (s : Unit) => (s, if i = 0
        then NpArr.a2 { dtype := 0, nrows := 2, cols := [[1, 2]] }
        else NpArr.a2 { dtype := 0, nrows := 1, cols := [[7]] })) ()).2
      = Except.ok { dtype := 0, nrows := 2, cols := [[1, 2], [7, 7]] } := by
  exact ⟨rfl, rfl⟩

theorem setColsSlice_ok_shape (dst : Arr2) (lo hi : Nat) (src : Arr2) (out2 : Arr2)
    (h : setColsSlice dst lo hi src = Except.ok out2) :
    out2.nrows = dst.nrows ∧ out2.dtype = dst.dtype := by
  simp only [setColsSlice] at h
  split at h
  · rw [Except.ok.injEq] at h
    subst h
    exact ⟨rfl, rfl⟩
  · simp at h

theorem setColsSlice_err_of_bad_row (dst : Arr2) (lo hi : Nat) (src : Arr2)
    (h1 : src.nrows ≠ dst.nrows) (h2 : src.nrows ≠ 1) :
    setColsSlice dst lo hi src = Except.error "could not broadcast input array" := by
  simp only [setColsSlice]
  rw [if_neg]
  intro hc
  rcases hc.1 with h | h
  · exact h1 h
  · exact h2 h

/-- If some nonzero index of the remaining list has a normalized output whose
row count matches neither the buffer's rows nor 1, the single-stack fill loop
with a state-independent apply function aborts with an error. -/
theorem oneNbGo_err {σ : Type} (g : Nat → NpArr) (output0 : Arr2) (r0 : Nat) :
    ∀ (l : List Nat) (s : σ) (out : Arr2), out.nrows = r0 →
    (∃ i, i ∈ l ∧ i ≠ 0 ∧ (to_2d_one_nb (g i)).nrows ≠ r0 ∧
      (to_2d_one_nb (g i)).nrows ≠ 1) →
    ∃ e, oneNbGo (fun k s2 => (s2, g k)) output0 l s out = (s, Except.error e) := by
  intro l
  induction l with
  | nil =>
    rintro s out hrows ⟨i, hik, h⟩
    cases hik
  | cons k rest ih =>
    rintro s out hrows ⟨i, hik, hi0, hbr, hb1⟩
    by_cases hk : k = 0
    · subst hk
      rw [oneNbGo_cons_zero]
      have hirest : i ∈ rest := by
        rcases List.mem_cons.mp hik with h | h
        · exact absurd h hi0
        · exact h
      rcases hE : setColsSlice out (0 * output0.ncols) ((0 + 1) * output0.ncols) output0
        with e | out2
      · exact ⟨e, rfl⟩
      · have hrows2 : out2.nrows = r0 := by
          rw [(setColsSlice_ok_shape _ _ _ _ _ hE).1, hrows]
        obtain ⟨e, hrec⟩ := ih s out2 hrows2 ⟨i, hirest, hi0, hbr, hb1⟩
        exact ⟨e, hrec⟩
    · by_cases hki : i = k
      · subst hki
        have herr := setColsSlice_err_of_bad_row out (i * (to_2d_one_nb (g i)).ncols)
          ((i + 1) * (to_2d_one_nb (g i)).ncols) (to_2d_one_nb (g i))
          (by rw [hrows]; exact hbr) hb1
        refine ⟨"could not broadcast input array", ?_⟩
        simp only [oneNbGo, if_neg hk, herr]
      · have hirest : i ∈ rest := by
          rcases List.mem_cons.mp hik with h | h
          · exact absurd h hki
          · exact h
        rcases hE : setColsSlice out (k * (to_2d_one_nb (g k)).ncols)
            ((k + 1) * (to_2d_one_nb (g k)).ncols) (to_2d_one_nb (g k)) with e | out2
        · exact ⟨e, by simp only [oneNbGo, if_neg hk, hE]⟩
        · have hrows2 : out2.nrows = r0 := by
            rw [(setColsSlice_ok_shape _ _ _ _ _ hE).1, hrows]
          obtain ⟨e, hrec⟩ := ih s out2 hrows2 ⟨i, hirest, hi0, hbr, hb1⟩
          refine ⟨e, ?_⟩
          simp only [oneNbGo, if_neg hk, hE]
          exact hrec

theorem multNbFill_cons (i : Nat) (d s : Arr2) (dr sr : List Arr2) :
    multNbFill i (d :: dr) (s :: sr) =
      match setColsSlice d (i * s.ncols) ((i + 1) * s.ncols) s with
      | Except.ok d2 =>
        match multNbFill i dr sr with
        | Except.ok rest => Except.ok (d2 :: rest)
        | Except.error e => Except.error e
      | Except.error e => Except.error e := rfl

/-- A successful inner fill leaves every position's row count unchanged. -/
theorem multNbFill_pres_rows (i : Nat) :
    ∀ (srcs dsts res : List Arr2), multNbFill i dsts srcs = Except.ok res →
    ∀ t, (res.get? t).map Arr2.nrows = (dsts.get? t).map Arr2.nrows := by
  intro srcs
  induction srcs with
  | nil =>
    intro dsts res h t
    simp only [multNbFill] at h
    rw [Except.ok.injEq] at h
    subst h
    rfl
  | cons s sr ih =>
    intro dsts res h t
    cases dsts with
    | nil => simp [multNbFill] at h
    | cons d dr =>
      rw [multNbFill_cons] at h
      rcases hE : setColsSlice d (i * s.ncols) ((i + 1) * s.ncols) s with e | d2 <;>
        rw [hE] at h
      · simp at h
      · rcases hF : multNbFill i dr sr with e | rest2 <;> rw [hF] at h
        · simp at h
        · simp only [Except.ok.injEq] at h
          subst h
          cases t with
          | zero =>
            simpa using (setColsSlice_ok_shape _ _ _ _ _ hE).1
          | succ t2 => simpa using ih dr rest2 hF t2

/-- The inner fill aborts with an error whenever some position j carries a
source buffer whose row count matches neither the destination's rows nor 1. -/
theorem multNbFill_err_at (i : Nat) :
    ∀ (j : Nat) (dsts srcs : List Arr2) (d s : Arr2),
    dsts.get? j = some d → srcs.get? j = some s →
    s.nrows ≠ d.nrows → s.nrows ≠ 1 →
    ∃ e, multNbFill i dsts srcs = Except.error e := by
  intro j
  induction j with
  | zero =>
    intro dsts srcs d s hd hs h1 h2
    cases dsts with
    | nil => simp at hd
    | cons d0 dr =>
      cases srcs with
      | nil => simp at hs
      | cons s0 sr =>
        have hd0 : d0 = d := by simpa using hd
        have hs0 : s0 = s := by simpa using hs
        have h1b : s0.nrows ≠ d0.nrows := by rw [hd0, hs0]; exact h1
        have h2b : s0.nrows ≠ 1 := by rw [hs0]; exact h2
        rw [multNbFill_cons, setColsSlice_err_of_bad_row d0 _ _ s0 h1b h2b]
        exact ⟨_, rfl⟩
  | succ j2 ih =>
    intro dsts srcs d s hd hs h1 h2
    cases dsts with
    | nil => simp at hd
    | cons d0 dr =>
      cases srcs with
      | nil => simp at hs
      | cons s0 sr =>
        have hd2 : dr.get? j2 = some d := by simpa using hd
        have hs2 : sr.get? j2 = some s := by simpa using hs
        rw [multNbFill_cons]
        rcases hE : setColsSlice d0 (i * s0.ncols) ((i + 1) * s0.ncols) s0 with e | dd
        · exact ⟨e, rfl⟩
        · obtain ⟨e, hF⟩ := ih dr sr d s hd2 hs2 h1 h2
          rw [hF]
          exact ⟨e, rfl⟩

/-- If some nonzero index of the remaining list has, at some position, a
normalized output whose row count matches neither that position's buffer rows
nor 1, the multi-stack outer fill loop with a state-independent apply function
aborts with an error. -/
theorem multNbGo_err {σ : Type} (gm : Nat → List NpArr) (outputs0 : List Arr2)
    (rowsOf : Nat → Option Nat) :
    ∀ (l : List Nat) (s : σ) (outs : List Arr2),
    (∀ t, (outs.get? t).map Arr2.nrows = rowsOf t) →
    (∃ i, i ∈ l ∧ i ≠ 0 ∧ ∃ j sj rn, (to_2d_multiple_nb (gm i)).get? j = some sj ∧
      rowsOf j = some rn ∧ sj.nrows ≠ rn ∧ sj.nrows ≠ 1) →
    ∃ e, multNbGo (fun k s2 => (s2, gm k)) outputs0 l s outs = (s, Except.error e) := by
  intro l
  induction l with
  | nil =>
    rintro s outs hinv ⟨i, hik, h⟩
    cases hik
  | cons k rest ih =>
    rintro s outs hinv ⟨i, hik, hi0, j, sj, rn, hsj, hrn, hb1, hb2⟩
    by_cases hki : i = k
    · subst hki
      obtain ⟨dj, hdj, hdjr⟩ : ∃ dj, outs.get? j = some dj ∧ dj.nrows = rn := by
        have hj := hinv j
        rw [hrn] at hj
        cases hout : outs.get? j with
        | none => rw [hout] at hj; simp at hj
        | some dj =>
          rw [hout] at hj
          simp at hj
          exact ⟨dj, rfl, hj⟩
      obtain ⟨e, hF⟩ := multNbFill_err_at i j outs (to_2d_multiple_nb (gm i)) dj sj hdj hsj
        (by rw [hdjr]; exact hb1) hb2
      refine ⟨e, ?_⟩
      simp only [multNbGo, if_neg hi0, hF]
    · have hirest : i ∈ rest := by
        rcases List.mem_cons.mp hik with h | h
        · exact absurd h hki
        · exact h
      by_cases hk : k = 0
      · subst hk
        rcases hF : multNbFill 0 outs outputs0 with e | outs2
        · exact ⟨e, by simp only [multNbGo, eq_self_iff_true, ite_true, hF]⟩
        · have hinv2 : ∀ t, (outs2.get? t).map Arr2.nrows = rowsOf t := by
            intro t
            rw [multNbFill_pres_rows 0 outputs0 outs outs2 hF t, hinv t]
          obtain ⟨e, hrec⟩ := ih s outs2 hinv2
            ⟨i, hirest, hi0, j, sj, rn, hsj, hrn, hb1, hb2⟩
          refine ⟨e, ?_⟩
          simp only [multNbGo, eq_self_iff_true, ite_true, hF]
          exact hrec
      · rcases hF : multNbFill k outs (to_2d_multiple_nb (gm k)) with e | outs2
        · exact ⟨e, by simp only [multNbGo, if_neg hk, hF]⟩
        · have hinv2 : ∀ t, (outs2.get? t).map Arr2.nrows = rowsOf t := by
            intro t
            rw [multNbFill_pres_rows k (to_2d_multiple_nb (gm k)) outs outs2 hF t, hinv t]
          obtain ⟨e, hrec⟩ := ih s outs2 hinv2
            ⟨i, hirest, hi0, j, sj, rn, hsj, hrn, hb1, hb2⟩
          refine ⟨e, ?_⟩
          simp only [multNbGo, if_neg hk, hF]
          exact hrec

/-- C3 (amended): for n >= 2, if some iteration i with 0 < i < n produces (at
some position, for the multi-stack variant) a buffer whose row count differs
from both the corresponding iteration-0 row count and 1, the compiled executor
fails deterministically with an error and produces no stacked output.  Dtype
drift is not detected (values are written into iteration 0's buffer, which
keeps its dtype), and a mismatched buffer with exactly one row is silently
broadcast rather than rejected, as the counterexample shows. -/
theorem C3_row_mismatch_fails (u : Int) (n : Nat) (hn : 2 ≤ n)
    (g : Nat → NpArr) (gm : Nat → List NpArr) (i : Nat) (hi1 : 1 ≤ i) (hi2 : i < n) :
    ((to_2d_one_nb (g i)).nrows ≠ (to_2d_one_nb (g 0)).nrows →
      (to_2d_one_nb (g i)).nrows ≠ 1 →
      ∃ e, apply_and_concat_one_nb u n (fun k (s : Unit) => (s, g k)) ()
        = ((), Except.error e)) ∧
    (∀ j sj d0, (to_2d_multiple_nb (gm i)).get? j = some sj →
      (to_2d_multiple_nb (gm 0)).get? j = some d0 →
      sj.nrows ≠ d0.nrows → sj.nrows ≠ 1 →
      ∃ e, apply_and_concat_multiple_nb u n (fun k (s : Unit) => (s, gm k)) ()
        = ((), Except.error e)) := by
  constructor
  · intro hbr hb1
    exact oneNbGo_err g (to_2d_one_nb (g 0)) (to_2d_one_nb (g 0)).nrows
      (List.range n) ()
      (npEmpty (to_2d_one_nb (g 0)).dtype (to_2d_one_nb (g 0)).nrows
        (n * (to_2d_one_nb (g 0)).ncols) u) rfl
      ⟨i, List.mem_range.mpr hi2, by omega, hbr, hb1⟩
  · intro j sj d0 hsj hd0 hb1 hb2
    have hinv : ∀ t, (((to_2d_multiple_nb (gm 0)).map
        (fun o => npEmpty o.dtype o.nrows (n * o.ncols) u)).get? t).map Arr2.nrows
        = ((to_2d_multiple_nb (gm 0)).get? t).map Arr2.nrows := by
      intro t
      rw [List.get?_map]
      cases h : (to_2d_multiple_nb (gm 0)).get? t <;> simp [npEmpty]
    exact multNbGo_err gm (to_2d_multiple_nb (gm 0))
      (fun t => ((to_2d_multiple_nb (gm 0)).get? t).map Arr2.nrows)
      (List.range n) ()
      ((to_2d_multiple_nb (gm 0)).map (fun o => npEmpty o.dtype o.nrows (n * o.ncols) u))
      hinv
      ⟨i, List.mem_range.mpr hi2, by omega, j, sj, d0.nrows, hsj,
        (by show ((to_2d_multiple_nb (gm 0)).get? j).map Arr2.nrows = some d0.nrows
            rw [hd0]
            rfl), hb1, hb2⟩

/-- Concrete input for the C3 witness: iteration 0 has 2 rows, iteration 1 has
3 rows (a genuine, non-broadcastable row mismatch). -/
def c3wg (k : Nat) : NpArr :=
  if k = 0 then NpArr.a2 { dtype := 0, nrows := 2, cols := [[1, 2]] }
  else NpArr.a2 { dtype := 0, nrows := 3, cols := [[1, 2, 3]] }

/-- Concrete multi-stack input for the C3 witness: one position, same rows. -/
def c3wgm (k : Nat) : List NpArr := [c3wg k]

/-- C3 witness: both compiled executors fail on the concrete n = 2 input whose
iteration 1 has 3 rows against iteration 0's 2 rows. -/
theorem C3_witness :
    (∃ e, apply_and_concat_one_nb 0 2 (fun k (s : Unit) => (s, c3wg k)) ()
      = ((), Except.error e)) ∧
    (∃ e, apply_and_concat_multiple_nb 0 2 (fun k (s : Unit) => (s, c3wgm k)) ()
      = ((), Except.error e)) :=
  ⟨(C3_row_mismatch_fails 0 2 (by decide) c3wg c3wgm 1 (by decide) (by decide)).1
      (by decide) (by decide),
   (C3_row_mismatch_fails 0 2 (by decide) c3wg c3wgm 1 (by decide) (by decide)).2 0
      (to_2d_one_nb (c3wg 1)) (to_2d_one_nb (c3wg 0)) (by decide) (by decide)
      (by decide) (by decide)⟩

theorem foldl_min_all {α : Type} (k : Nat) :
    ∀ (xss : List (List α)), (∀ l2 ∈ xss, l2.length = k) →
    xss.foldl (fun m l2 => min m l2.length) k = k := by
  intro xss
  induction xss with
  | nil => intro h; rfl
  | cons x xs ih =>
    intro h
    have hx : x.length = k := h x (by simp)
    simp only [List.foldl_cons, hx, min_self]
    exact ih (fun l2 hl => h l2 (by simp [hl]))

theorem filterMap_get?_all {α : Type} (j : Nat) (d : α) :
    ∀ (xss : List (List α)), (∀ l2 ∈ xss, j < l2.length) →
    xss.filterMap (fun l2 => l2.get? j) = xss.map (fun l2 => l2.getD j d) := by
  intro xss
  induction xss with
  | nil => intro h; rfl
  | cons x xs ih =>
    intro h
    have hx : j < x.length := h x (by simp)
    have hsome : x.get? j = some (x.getD j d) := by
      rw [List.get?_eq_getElem?, List.getD_eq_getElem?_getD]
      simp [List.getElem?_eq_getElem hx]
    simp only [List.filterMap_cons, hsome]
    rw [ih (fun l2 hl => h l2 (by simp [hl]))]
    rfl

/-- Python zip(*xss) over tuples of uniform length k is the k-position
transpose. -/
theorem pyZip_uniform {α : Type} (k : Nat) (xss : List (List α)) (hne : xss ≠ [])
    (hlen : ∀ l2 ∈ xss, l2.length = k) (d : α) :
    pyZip xss = (List.range k).map (fun j => xss.map (fun l2 => l2.getD j d)) := by
  cases xss with
  | nil => exact absurd rfl hne
  | cons first rest =>
    have hf : first.length = k := hlen first (by simp)
    have hfold : rest.foldl (fun m l2 => min m l2.length) first.length = k := by
      rw [hf]
      exact foldl_min_all k rest (fun l2 hl => hlen l2 (by simp [hl]))
    rw [pyZip, hfold]
    apply List.map_congr_left
    intro j hj
    have hjk : j < k := List.mem_range.mp hj
    exact filterMap_get?_all j d (first :: rest)
      (fun l2 hl => by rw [hlen l2 hl]; exact hjk)

theorem getD_map_lt {α β : Type} (f : α → β) (l : List α) (j : Nat)
    (hj : j < l.length) (d : β) (d2 : α) :
    (l.map f).getD j d = f (l.getD j d2) := by
  rw [List.getD_eq_getElem?_getD, List.getD_eq_getElem?_getD, List.getElem?_map]
  simp [List.getElem?_eq_getElem hj]

/-- mapM over Except succeeds pointwise: the result list pairs up with the
input list. -/
theorem mapM_ok_exists {α β : Type} (g2 : α → Except String β) :
    ∀ (l : List α), (∀ x ∈ l, ∃ y, g2 x = Except.ok y) →
    ∃ res, l.mapM g2 = Except.ok res ∧ res.length = l.length ∧
      ∀ t y, res.get? t = some y → ∃ x, l.get? t = some x ∧ g2 x = Except.ok y := by
  intro l
  induction l with
  | nil =>
    intro h
    exact ⟨[], rfl, rfl, by intro t y hy; simp at hy⟩
  | cons x xs ih =>
    intro h
    obtain ⟨y, hy⟩ := h x (by simp)
    obtain ⟨res, hres, hlen, hget⟩ := ih (fun z hz => h z (by simp [hz]))
    refine ⟨y :: res, ?_, by simp [hlen], ?_⟩
    · rw [List.mapM_cons, hy, hres]
      rfl
    · intro t z hz
      cases t with
      | zero =>
        refine ⟨x, rfl, ?_⟩
        have : y = z := by simpa using hz
        rw [← this]
        exact hy
      | succ t2 =>
        obtain ⟨x2, hx2, hg2⟩ := hget t2 z (by simpa using hz)
        exact ⟨x2, by simpa using hx2, hg2⟩

theorem column_stack_exists (l2 : List Arr2) (hne : l2 ≠ [])
    (hrows : ∀ y ∈ l2, y.nrows = (l2.headD { dtype := 0, nrows := 0, cols := [] }).nrows) :
    ∃ v, column_stack l2 = Except.ok v ∧ v.cols = (l2.map Arr2.cols).flatten := by
  cases l2 with
  | nil => exact absurd rfl hne
  | cons x rest =>
    refine ⟨_, column_stack_ok x rest (fun y hy => ?_), rfl⟩
    exact hrows y (by simp [hy])

/-- C8: for every n >= 1 where each iteration returns a tuple of k buffers
(k fixed across iterations, positions row-homogeneous), the sequential
multi-stack operation returns a list of exactly k buffers, where the buffer at
position j is the column-wise concatenation across iterations, in ascending
iteration order, of the normalized j-th tuple elements. -/
theorem C8_multi_stack {σ : Type} (n k : Nat) (hn : 1 ≤ n)
    (g : Nat → List NpArr) (s0 : σ)
    (hlen : ∀ i, i < n → (g i).length = k)
    (hrows : ∀ i, i < n → ∀ j, j < k →
      (to_2d ((g i).getD j (NpArr.a1 0 []))).nrows
        = (to_2d ((g 0).getD j (NpArr.a1 0 []))).nrows) :
    ∃ outs, apply_and_concat_multiple n (fun i s => (s, g i)) s0 = (s0, Except.ok outs) ∧
      outs.length = k ∧
      ∀ j oj, j < k → outs.get? j = some oj →
        oj.cols = ((List.range n).map
          (fun i => (to_2d ((g i).getD j (NpArr.a1 0 []))).cols)).flatten := by
  obtain ⟨m, rfl⟩ := Nat.exists_eq_add_of_le hn
  have hL0len : ∀ l2 ∈ (List.range (1 + m)).map (fun i => (g i).map to_2d),
      l2.length = k := by
    intro l2 hl
    obtain ⟨i, hi, rfl⟩ := List.mem_map.mp hl
    simp [hlen i (List.mem_range.mp hi)]
  have hzip := pyZip_uniform k ((List.range (1 + m)).map (fun i => (g i).map to_2d))
    (by simp [range_head_decomp]) hL0len { dtype := 0, nrows := 0, cols := [] }
  have hinner : ∀ j, j < k →
      ((List.range (1 + m)).map (fun i => (g i).map to_2d)).map
        (fun l2 => l2.getD j { dtype := 0, nrows := 0, cols := [] })
      = (List.range (1 + m)).map (fun i => to_2d ((g i).getD j (NpArr.a1 0 []))) := by
    intro j hj
    rw [List.map_map]
    apply List.map_congr_left
    intro i hi
    have hik : i < 1 + m := List.mem_range.mp hi
    have hjl : j < (g i).length := by rw [hlen i hik]; exact hj
    exact getD_map_lt to_2d (g i) j hjl { dtype := 0, nrows := 0, cols := [] }
      (NpArr.a1 0 [])
  have hstack : ∀ j, j < k →
      ∃ v, column_stack ((List.range (1 + m)).map
          (fun i => to_2d ((g i).getD j (NpArr.a1 0 [])))) = Except.ok v ∧
        v.cols = ((List.range (1 + m)).map
          (fun i => (to_2d ((g i).getD j (NpArr.a1 0 []))).cols)).flatten := by
    intro j hj
    obtain ⟨v, hv, hvc⟩ := column_stack_exists
      ((List.range (1 + m)).map (fun i => to_2d ((g i).getD j (NpArr.a1 0 []))))
      (by simp [range_head_decomp])
      (by
        intro y hy
        obtain ⟨i, hi, rfl⟩ := List.mem_map.mp hy
        have hik : i < 1 + m := List.mem_range.mp hi
        rw [hrows i hik j hj]
        rw [range_head_decomp, List.map_cons]
        rfl)
    refine ⟨v, hv, ?_⟩
    rw [hvc, List.map_map]
    rfl
  obtain ⟨res, hres, hreslen, hget⟩ := mapM_ok_exists column_stack
    ((List.range k).map (fun j =>
      ((List.range (1 + m)).map (fun i => (g i).map to_2d)).map
        (fun l2 => l2.getD j { dtype := 0, nrows := 0, cols := [] })))
    (by
      intro x hx
      obtain ⟨j, hj, rfl⟩ := List.mem_map.mp hx
      have hjk : j < k := List.mem_range.mp hj
      rw [hinner j hjk]
      obtain ⟨v, hv, hvc⟩ := hstack j hjk
      exact ⟨v, hv⟩)
  refine ⟨res, ?_, by simpa using hreslen, ?_⟩
  · rw [apply_and_concat_multiple, seqRun_pure]
    simp only [List.map_map, Function.comp_def]
    rw [show ((List.range (1 + m)).map (fun i => List.map to_2d (g i))) =
        (List.range (1 + m)).map (fun i => (g i).map to_2d) from rfl, hzip, hres]
  · intro j oj hj hoj
    obtain ⟨x, hx, hgx⟩ := hget j oj hoj
    have hxval : x = ((List.range (1 + m)).map (fun i => (g i).map to_2d)).map
        (fun l2 => l2.getD j { dtype := 0, nrows := 0, cols := [] }) := by
      rw [List.get?_map, List.get?_range hj] at hx
      simpa using hx.symm
    subst hxval
    rw [hinner j hj] at hgx
    obtain ⟨v, hv, hvc⟩ := hstack j hj
    have hvo : v = oj := by
      have := hv.symm.trans hgx
      simpa using this
    rw [← hvo]
    exact hvc

/-- Concrete input for the C8 witness: each iteration returns a 2-tuple of
1-column buffers. -/
def c8wg (i : Nat) : List NpArr :=
  [NpArr.a1 0 [Int.ofNat i], NpArr.a1 1 [Int.ofNat (100 + i)]]

/-- C8 witness: n = 3 iterations of 2-tuples of 1-column buffers give a list
of 2 stacked buffers whose columns are the three per-iteration columns in
ascending iteration order. -/
theorem C8_witness :
    ∃ outs, apply_and_concat_multiple 3 (fun i (s : Unit) => (s, c8wg i)) ()
        = ((), Except.ok outs) ∧
      outs.length = 2 ∧
      ∀ j oj, j < 2 → outs.get? j = some oj →
        oj.cols = ((List.range 3).map
          (fun i => (to_2d ((c8wg i).getD j (NpArr.a1 0 []))).cols)).flatten :=
  C8_multi_stack 3 2 (by decide) c8wg () (by decide) (by decide)

theorem setColsSlice_ok_ncols (dst : Arr2) (lo hi : Nat) (src out2 : Arr2)
    (hlohi : lo ≤ hi) (h : setColsSlice dst lo hi src = Except.ok out2) :
    out2.ncols = dst.ncols := by
  simp only [setColsSlice] at h
  split at h
  · rw [Except.ok.injEq] at h
    subst h
    simp only [Arr2.ncols, List.length_append, List.length_take, List.length_map,
      List.length_range, List.length_drop]
    omega
  · simp at h

/-- setColsSlice succeeds whenever rows match and the slice fits the buffer. -/
theorem setColsSlice_ok_of_fit (dst : Arr2) (i : Nat) (src : Arr2)
    (hr : src.nrows = dst.nrows) (hfit : (i + 1) * src.ncols ≤ dst.ncols) :
    ∃ out2, setColsSlice dst (i * src.ncols) ((i + 1) * src.ncols) src
      = Except.ok out2 := by
  have hlo : i * src.ncols ≤ (i + 1) * src.ncols := by
    rw [Nat.succ_mul]
    exact Nat.le_add_right _ _
  have hlo2 : min (i * src.ncols) dst.ncols = i * src.ncols :=
    Nat.min_eq_left (le_trans hlo hfit)
  have hhi2 : min ((i + 1) * src.ncols) dst.ncols = (i + 1) * src.ncols :=
    Nat.min_eq_left hfit
  have hwt : (i + 1) * src.ncols - i * src.ncols = src.ncols := by
    rw [Nat.succ_mul]
    omega
  simp only [setColsSlice, hlo2, hhi2, hwt]
  rw [if_pos ⟨Or.inl hr, by simp⟩]
  exact ⟨_, rfl⟩

theorem forall2_comp {α β γ : Type} {r : α → β → Prop} {q : α → γ → Prop}
    {p : β → γ → Prop} {as : List α} {bs : List β} {cs : List γ}
    (h1 : List.Forall₂ r as bs) (h2 : List.Forall₂ q as cs)
    (himp : ∀ a b c, r a b → q a c → p b c) : List.Forall₂ p bs cs := by
  induction h1 generalizing cs with
  | nil =>
    cases h2
    exact List.Forall₂.nil
  | cons hr htail ih =>
    cases h2 with
    | cons hq htail2 => exact List.Forall₂.cons (himp _ _ _ hr hq) (ih htail2)

theorem forall2_of_getD {p : Arr2 → Arr2 → Prop} :
    ∀ (l1 l2 : List Arr2), l1.length = l2.length →
    (∀ j, j < l1.length →
      p (l1.getD j { dtype := 0, nrows := 0, cols := [] })
        (l2.getD j { dtype := 0, nrows := 0, cols := [] })) →
    List.Forall₂ p l1 l2 := by
  intro l1
  induction l1 with
  | nil =>
    intro l2 hlen _
    cases l2 with
    | nil => exact List.Forall₂.nil
    | cons y ys => simp at hlen
  | cons x xs ih =>
    intro l2 hlen hp
    cases l2 with
    | nil => simp at hlen
    | cons y ys =>
      refine List.Forall₂.cons (by simpa using hp 0 (by simp)) ?_
      refine ih ys (by simpa using hlen) ?_
      intro j hj
      simpa using hp (j + 1) (by simpa using hj)

/-- The inner multi-stack fill succeeds when every position's source has the
destination's rows and its slice fits, preserving all shapes. -/
theorem multNbFill_ok (i : Nat) :
    ∀ (srcs dsts : List Arr2),
    List.Forall₂ (fun d s => s.nrows = d.nrows ∧ (i + 1) * s.ncols ≤ d.ncols) dsts srcs →
    ∃ res, multNbFill i dsts srcs = Except.ok res ∧
      List.Forall₂ (fun d r2 => r2.nrows = d.nrows ∧ r2.ncols = d.ncols) dsts res := by
  intro srcs
  induction srcs with
  | nil =>
    intro dsts h
    cases h
    exact ⟨[], rfl, List.Forall₂.nil⟩
  | cons s sr ih =>
    intro dsts h
    cases h with
    | cons hds htail =>
      rename_i d dr
      obtain ⟨d2, hd2⟩ := setColsSlice_ok_of_fit d i s hds.1 hds.2
      obtain ⟨res, hres, hpres⟩ := ih dr htail
      refine ⟨d2 :: res, ?_, List.Forall₂.cons
        ⟨(setColsSlice_ok_shape _ _ _ _ _ hd2).1,
         setColsSlice_ok_ncols d _ _ s d2
           (by rw [Nat.succ_mul]; exact Nat.le_add_right _ _) hd2⟩ hpres⟩
      rw [multNbFill_cons, hd2, hres]

theorem forall2_trans {α β γ : Type} {r : α → β → Prop} {q : β → γ → Prop}
    {p : α → γ → Prop} {as : List α} {bs : List β} {cs : List γ}
    (h1 : List.Forall₂ r as bs) (h2 : List.Forall₂ q bs cs)
    (himp : ∀ a b c, r a b → q b c → p a c) : List.Forall₂ p as cs := by
  induction h1 generalizing cs with
  | nil =>
    cases h2
    exact List.Forall₂.nil
  | cons hr htail ih =>
    cases h2 with
    | cons hq htail2 => exact List.Forall₂.cons (himp _ _ _ hr hq) (ih htail2)

/-- The outer multi-stack fill loop succeeds when every visited index is below
n and every nonzero iteration's normalized tuple matches outputs0's
per-position shapes; the apply function is invoked exactly at the nonzero
visited indices, in order (index 0 reuses outputs0). -/
theorem multNbGo_ok {σ : Type} (n : Nat) (f : Nat → σ → σ × List NpArr)
    (outputs0 : List Arr2)
    (hsh : ∀ i s2, i < n → i ≠ 0 →
      List.Forall₂ (fun o src => src.nrows = o.nrows ∧ src.ncols = o.ncols)
        outputs0 (to_2d_multiple_nb (f i s2).2)) :
    ∀ (l : List Nat) (s : σ) (outs : List Arr2),
    (∀ i ∈ l, i < n) →
    List.Forall₂ (fun o d => d.nrows = o.nrows ∧ d.ncols = n * o.ncols) outputs0 outs →
    ∃ res, multNbGo f outputs0 l s outs
      = (l.foldl (fun s2 i => if i = 0 then s2 else (f i s2).1) s, Except.ok res) := by
  intro l
  induction l with
  | nil =>
    intro s outs _ _
    exact ⟨outs, rfl⟩
  | cons k rest ih =>
    intro s outs hbound hinv
    have hkn : k < n := hbound k (by simp)
    have hbound2 : ∀ i ∈ rest, i < n := fun i hi => hbound i (by simp [hi])
    by_cases hk : k = 0
    · subst hk
      have hrel : List.Forall₂
          (fun d s2 => s2.nrows = d.nrows ∧ (0 + 1) * s2.ncols ≤ d.ncols)
          outs outputs0 := by
        refine List.Forall₂.imp ?_ hinv.flip
        rintro d o ⟨hr, hc⟩
        refine ⟨hr.symm, ?_⟩
        rw [Nat.zero_add, Nat.one_mul, hc]
        exact Nat.le_mul_of_pos_left o.ncols hkn
      obtain ⟨outs2, hfill, hpres⟩ := multNbFill_ok 0 outputs0 outs hrel
      have hinv2 : List.Forall₂ (fun o d => d.nrows = o.nrows ∧ d.ncols = n * o.ncols)
          outputs0 outs2 := by
        refine forall2_trans hinv hpres ?_
        rintro o d r2 ⟨h1, h2⟩ ⟨h3, h4⟩
        exact ⟨h3.trans h1, h4.trans h2⟩
      obtain ⟨res, hres⟩ := ih s outs2 hbound2 hinv2
      refine ⟨res, ?_⟩
      simp only [multNbGo, eq_self_iff_true, ite_true, hfill]
      rw [hres]
      simp
    · have hrel : List.Forall₂
          (fun d s2 => s2.nrows = d.nrows ∧ (k + 1) * s2.ncols ≤ d.ncols)
          outs (to_2d_multiple_nb (f k s).2) := by
        refine forall2_comp hinv (hsh k s hkn hk) ?_
        rintro o d src ⟨h1, h2⟩ ⟨h3, h4⟩
        refine ⟨h3.trans h1.symm, ?_⟩
        rw [h4, h2]
        exact Nat.mul_le_mul_right o.ncols hkn
      obtain ⟨outs2, hfill, hpres⟩ :=
        multNbFill_ok k (to_2d_multiple_nb (f k s).2) outs hrel
      have hinv2 : List.Forall₂ (fun o d => d.nrows = o.nrows ∧ d.ncols = n * o.ncols)
          outputs0 outs2 := by
        refine forall2_trans hinv hpres ?_
        rintro o d r2 ⟨h1, h2⟩ ⟨h3, h4⟩
        exact ⟨h3.trans h1, h4.trans h2⟩
      obtain ⟨res, hres⟩ := ih (f k s).1 outs2 hbound2 hinv2
      refine ⟨res, ?_⟩
      simp only [multNbGo, if_neg hk, hfill]
      rw [hres]
      simp [if_neg hk]

theorem foldl_trace_simple :
    ∀ (l : List Nat), (∀ i ∈ l, i ≠ 0) → ∀ s : List Nat,
    l.foldl (fun s2 i => if i = 0 then s2 else s2 ++ [i]) s = s ++ l := by
  intro l
  induction l with
  | nil =>
    intro _ s
    simp
  | cons k rest ih =>
    intro h s
    have hk : k ≠ 0 := h k (by simp)
    simp only [List.foldl_cons, if_neg hk]
    rw [ih (fun i hi => h i (by simp [hi])) (s ++ [k])]
    simp

/-- C10: both compiled executors invoke the apply function exactly max(n, 1)
times: index 0 is invoked exactly once before the fill loop (its result is
reused for iteration 0, never recomputed) — so even at n = 0 the apply
function is still called once at index 0 — and each index 1..n-1 is invoked
exactly once, in ascending order, provided all iterations keep iteration 0's
per-position row and column counts (so no iteration aborts the loop). -/
theorem C10_compiled_call_counts (u : Int) (n : Nat) (g : Nat → NpArr)
    (gm : Nat → List NpArr)
    (hone : ∀ i, i < n →
      (to_2d_one_nb (g i)).nrows = (to_2d_one_nb (g 0)).nrows ∧
      (to_2d_one_nb (g i)).ncols = (to_2d_one_nb (g 0)).ncols)
    (hmlen : ∀ i, i < n →
      (to_2d_multiple_nb (gm i)).length = (to_2d_multiple_nb (gm 0)).length)
    (hmsh : ∀ i, i < n → ∀ j, j < (to_2d_multiple_nb (gm 0)).length →
      ((to_2d_multiple_nb (gm i)).getD j { dtype := 0, nrows := 0, cols := [] }).nrows
        = ((to_2d_multiple_nb (gm 0)).getD j { dtype := 0, nrows := 0, cols := [] }).nrows ∧
      ((to_2d_multiple_nb (gm i)).getD j { dtype := 0, nrows := 0, cols := [] }).ncols
        = ((to_2d_multiple_nb (gm 0)).getD j { dtype := 0, nrows := 0, cols := [] }).ncols) :
    (apply_and_concat_one_nb u n (fun i (tr : List Nat) => (tr ++ [i], g i)) []).1
      = List.range (max n 1) ∧
    (apply_and_concat_multiple_nb u n (fun i (tr : List Nat) => (tr ++ [i], gm i)) []).1
      = List.range (max n 1) := by
  rcases Nat.eq_zero_or_pos n with hz | hpos
  · subst hz
    exact ⟨rfl, rfl⟩
  · obtain ⟨m, rfl⟩ := Nat.exists_eq_add_of_le hpos
    have hmax : max (1 + m) 1 = 1 + m := by omega
    constructor
    · set O := to_2d_one_nb (g 0) with hO
      have harith : (1 + m) * O.ncols - O.ncols = m * O.ncols := by
        rw [Nat.add_mul, Nat.one_mul]
        omega
      have hset0 : setColsSlice (npEmpty O.dtype O.nrows ((1 + m) * O.ncols) u)
          (0 * O.ncols) ((0 + 1) * O.ncols) O
          = Except.ok
              { dtype := O.dtype, nrows := O.nrows,
                cols := O.cols ++ List.replicate (m * O.ncols)
                  (List.replicate O.nrows u) } := by
        have h0 := setColsSlice_exact O.dtype O.nrows O.ncols 0 m
          [] (List.replicate ((1 + m) * O.ncols) (List.replicate O.nrows u)) O
          (by simp) (by simp [Nat.add_comm]) rfl rfl
        simpa [npEmpty, List.drop_replicate, harith] using h0
      have hshape1 : ∀ i s2, i ∈ List.range' 1 m →
          (to_2d_one_nb (((fun i2 (tr : List Nat) => (tr ++ [i2], g i2)) i s2)).2).nrows
            = O.nrows ∧
          (to_2d_one_nb (((fun i2 (tr : List Nat) => (tr ++ [i2], g i2)) i s2)).2).ncols
            = O.ncols := by
        intro i s2 hi
        obtain ⟨h1, h2⟩ := List.mem_range'_1.mp hi
        exact hone i (by omega)
      have hfill := oneNbGo_fill (fun i (tr : List Nat) => (tr ++ [i], g i)) O
        O.nrows O.ncols O.dtype m 1 [0] O.cols
        (List.replicate (m * O.ncols) (List.replicate O.nrows u))
        (le_refl 1) hshape1 (by simp [Arr2.ncols]) (by simp)
      show (oneNbGo (fun i (tr : List Nat) => (tr ++ [i], g i)) O
          (List.range (1 + m)) [0]
          (npEmpty O.dtype O.nrows ((1 + m) * O.ncols) u)).1 = List.range (max (1 + m) 1)
      rw [range_head_decomp, oneNbGo_cons_zero]
      simp only [hset0, hfill]
      rw [seqRun_trace]
      rw [hmax, range_head_decomp]
      simp
    · have hsh : ∀ i s2, i < 1 + m → i ≠ 0 →
          List.Forall₂ (fun o src => src.nrows = o.nrows ∧ src.ncols = o.ncols)
            (to_2d_multiple_nb (gm 0))
            (to_2d_multiple_nb (((fun i2 (tr : List Nat) => (tr ++ [i2], gm i2)) i s2)).2) := by
        intro i s2 hi _
        exact forall2_of_getD (to_2d_multiple_nb (gm 0)) (to_2d_multiple_nb (gm i))
          (hmlen i hi).symm
          (fun j hj => ⟨(hmsh i hi j hj).1, (hmsh i hi j hj).2⟩)
      have hinv0 : List.Forall₂
          (fun o d => d.nrows = o.nrows ∧ d.ncols = (1 + m) * o.ncols)
          (to_2d_multiple_nb (gm 0))
          ((to_2d_multiple_nb (gm 0)).map
            (fun o => npEmpty o.dtype o.nrows ((1 + m) * o.ncols) u)) := by
        rw [List.forall₂_map_right_iff]
        rw [List.forall₂_same]
        intro o ho
        exact ⟨rfl, by simp [npEmpty, Arr2.ncols]⟩
      obtain ⟨res, hres⟩ := multNbGo_ok (1 + m)
        (fun i (tr : List Nat) => (tr ++ [i], gm i))
        (to_2d_multiple_nb (gm 0)) hsh (List.range (1 + m)) [0]
        ((to_2d_multiple_nb (gm 0)).map
          (fun o => npEmpty o.dtype o.nrows ((1 + m) * o.ncols) u))
        (fun i hi => List.mem_range.mp hi) hinv0
      have h1 : (apply_and_concat_multiple_nb u (1 + m)
          (fun i (tr : List Nat) => (tr ++ [i], gm i)) []).1
          = (List.range (1 + m)).foldl
              (fun s2 i => if i = 0 then s2 else s2 ++ [i]) [0] := by
        show (multNbGo (fun i (tr : List Nat) => (tr ++ [i], gm i))
            (to_2d_multiple_nb (gm 0)) (List.range (1 + m)) [0]
            ((to_2d_multiple_nb (gm 0)).map
              (fun o => npEmpty o.dtype o.nrows ((1 + m) * o.ncols) u))).1
          = (List.range (1 + m)).foldl
              (fun s2 i => if i = 0 then s2 else s2 ++ [i]) [0]
        rw [hres]
      rw [h1, range_head_decomp]
      simp only [List.foldl_cons, eq_self_iff_true, ite_true]
      rw [foldl_trace_simple (List.range' 1 m)
        (fun i hi => by
          obtain ⟨ha, hb⟩ := List.mem_range'_1.mp hi
          omega) [0]]
      rw [hmax, range_head_decomp]
      simp

/-- Concrete inputs for the C10 witness. -/
def c10g (i : Nat) : NpArr := NpArr.a1 0 [Int.ofNat i, 7]

/-- Concrete multi-stack input for the C10 witness. -/
def c10gm (i : Nat) : List NpArr := [NpArr.a1 0 [Int.ofNat i], NpArr.a1 1 [5, 6]]

/-- C10 witness: with n = 3 and homogeneous outputs, both compiled executors
record the trace [0, 1, 2] = List.range (max 3 1). -/
theorem C10_witness :
    (apply_and_concat_one_nb 9 3 (fun i (tr : List Nat) => (tr ++ [i], c10g i)) []).1
      = List.range (max 3 1) ∧
    (apply_and_concat_multiple_nb 9 3
      (fun i (tr : List Nat) => (tr ++ [i], c10gm i)) []).1
      = List.range (max 3 1) :=
  C10_compiled_call_counts 9 3 c10g c10gm (by decide) (by decide) (by decide)

end VbtCombine
